import Mathlib

/-!
# Verification of the serial-monitor session engine

Shallow embedding of the core of the `serial-monitor` repository:

* `src/string_decoder.rs` — the lossy incremental UTF-8 `StringDecoder`
  (`Decoder::decode` over a `BytesMut` buffer);
* `src/main.rs` — the key-event translator `handle_key_event`, the exit
  sentinel (`exit_char` / `exit_code`), the `Eol` end-of-line table and the
  `monitor` select loop.

Bytes are modelled as `Nat` (values < 256 in practice; the UTF-8 guards
reject anything ≥ 0xF5 anyway), Rust `String`s by their UTF-8 byte lists,
and Rust `Result` by `Except`.
-/

namespace SerialMonitor

/-- Mirror of `ProgramError` (src/error.rs).  The payloads (port name,
io/serialport errors) carry no information the verified code inspects, so
they are dropped. -/
inductive ProgramError where
  | NoPortFound : ProgramError
  | UnableToOpen : ProgramError
  | IoError : ProgramError
  | SerialPortError : ProgramError
  | CrossTermError : ProgramError
deriving DecidableEq, Repr

/-! ## UTF-8 validation

`StringDecoder::decode` is driven by `str::from_utf8`, i.e. by the standard
UTF-8 validity predicate: 1-byte `00..7F`; 2-byte `C2..DF` + continuation;
3-byte `E0 A0..BF` / `E1..EC 80..BF` / `ED 80..9F` (no surrogates) /
`EE..EF 80..BF` + continuation; 4-byte `F0 90..BF` / `F1..F3 80..BF` /
`F4 80..8F` (≤ U+10FFFF) + two continuations. -/

/-- `b` is a UTF-8 continuation byte (`80..BF`). -/
def isCont (b : Nat) : Bool := 0x80 ≤ b && b < 0xC0

/-- Allowed second byte of a three-byte sequence starting with `b0`. -/
def cont2ok (b0 b1 : Nat) : Bool :=
  if b0 = 0xE0 then 0xA0 ≤ b1 && b1 < 0xC0
  else if b0 = 0xED then 0x80 ≤ b1 && b1 < 0xA0
  else isCont b1

/-- Allowed second byte of a four-byte sequence starting with `b0`. -/
def cont3ok (b0 b1 : Nat) : Bool :=
  if b0 = 0xF0 then 0x90 ≤ b1 && b1 < 0xC0
  else if b0 = 0xF4 then 0x80 ≤ b1 && b1 < 0x90
  else isCont b1

/-- If the list starts with a complete well-formed UTF-8 character, return
the length (in bytes) of that character; otherwise `none`. -/
def utf8FirstChar : List Nat → Option Nat
  | [] => none
  | b0 :: rest =>
    if b0 < 0x80 then some 1
    else if b0 < 0xC2 then none
    else if b0 < 0xE0 then
      match rest with
      | b1 :: _ => if isCont b1 then some 2 else none
      | [] => none
    else if b0 < 0xF0 then
      match rest with
      | b1 :: b2 :: _ => if cont2ok b0 b1 && isCont b2 then some 3 else none
      | _ => none
    else if b0 < 0xF5 then
      match rest with
      | b1 :: b2 :: b3 :: _ =>
        if cont3ok b0 b1 && isCont b2 && isCont b3 then some 4 else none
      | _ => none
    else none

/-- Fuelled worker for `utf8ValidUpTo` (fuel keeps the definition
structurally recursive, so it evaluates by `rfl`/`decide`). -/
def utf8ValidUpToGo : Nat → List Nat → Nat
  | 0, _ => 0
  | fuel + 1, l =>
    match utf8FirstChar l with
    | some n => n + utf8ValidUpToGo fuel (l.drop n)
    | none => 0

/-- Number of leading bytes of `l` that form a sequence of complete valid
UTF-8 characters: the `valid_up_to()` of `str::from_utf8`.  -/
def utf8ValidUpTo (l : List Nat) : Nat := utf8ValidUpToGo l.length l

/-- `str::from_utf8` succeeds on `l`. -/
def validUtf8 (l : List Nat) : Bool := utf8ValidUpTo l = l.length

/-- UTF-8 encoding of `char::REPLACEMENT_CHARACTER` (U+FFFD). -/
def replacementChar : List Nat := [0xEF, 0xBF, 0xBD]

/-! ## The decoder -/

/-- Mirror of `StringDecoder` (src/string_decoder.rs): the pair
`incomplete: (usize, [u8; 4])` is modelled as the list of its first
`index` buffered bytes. -/
structure StringDecoder where
  incomplete : List Nat
deriving DecidableEq, Repr

/-- `StringDecoder::new()`. -/
def StringDecoder.new : StringDecoder := ⟨[]⟩

/-- Mirror of `<StringDecoder as Decoder>::decode`.  Returns the Rust
`Result<Option<String>>` (`String` as its UTF-8 bytes), the decoder state
after the call, and what remains of the `BytesMut` buffer `src` after the
call's `split_to`/`split` consumption. -/
def StringDecoder.decode (d : StringDecoder) (src : List Nat) :
    Except ProgramError (Option (List Nat)) × StringDecoder × List Nat :=
  match src with
  | [] => (.ok none, d, [])
  | b :: rest =>
    let src := b :: rest
    if utf8ValidUpTo src = src.length then
      -- `Ok(_)` arm: the whole buffer is valid; `src.split()` consumes it all.
      if d.incomplete.length > 0 then
        (.ok (some (replacementChar ++ src)), ⟨[]⟩, [])
      else
        (.ok (some src), d, [])
    else if 0 < utf8ValidUpTo src then
      -- `Err(err) if err.valid_up_to() > 0` arm: split off the valid prefix.
      if d.incomplete.length > 0 then
        (.ok (some (replacementChar ++ src.take (utf8ValidUpTo src))), ⟨[]⟩,
          src.drop (utf8ValidUpTo src))
      else
        (.ok (some (src.take (utf8ValidUpTo src))), d, src.drop (utf8ValidUpTo src))
    else
      -- `Err(_)` arm: consume one byte into the pending buffer.
      let buf := d.incomplete ++ [b]
      if utf8ValidUpTo buf = buf.length then
        (.ok (some buf), ⟨[]⟩, rest)
      else if buf.length = 4 then
        (.ok (some replacementChar), ⟨[]⟩, rest)
      else
        (.ok none, ⟨buf⟩, rest)

/-- Fuelled driver: repeatedly invoke `decode` on the buffered bytes until
they are exhausted, concatenating the produced strings.  This models how
`FramedRead` (src/main.rs, `serial_reader`) drives the codec: `decode` is
called again on the leftover buffer each time it yields an item, and again
when further reads or the end of stream arrive, so every buffered byte is
offered to `decode` again.  A decode error stops the stream. -/
def decodeAllGo : Nat → StringDecoder → List Nat → List Nat × StringDecoder
  | 0, d, _ => ([], d)
  | _ + 1, d, [] => ([], d)
  | fuel + 1, d, b :: rest =>
    match d.decode (b :: rest) with
    | (.ok out, d2, remaining) =>
      let next := decodeAllGo fuel d2 remaining
      (out.getD [] ++ next.1, next.2)
    | (.error _, d2, _) => ([], d2)

/-- Feed one chunk through `decode` to exhaustion (each call on a nonempty
buffer consumes at least one byte, so `src.length` calls suffice). -/
def decodeAll (d : StringDecoder) (src : List Nat) : List Nat × StringDecoder :=
  decodeAllGo src.length d src

/-- Feed a list of chunks sequentially through the decoder. -/
def feedPieces : StringDecoder → List (List Nat) → List Nat × StringDecoder
  | d, [] => ([], d)
  | d, piece :: ps =>
    let first := decodeAll d piece
    let next := feedPieces first.2 ps
    (first.1 ++ next.1, next.2)

/-- `e` is exactly the encoding of one valid UTF-8 character. -/
def isCharEnc (e : List Nat) : Prop := utf8FirstChar e = some e.length

/-! ## Key events and the translator (src/main.rs) -/

/-- The crossterm `KeyCode` variants `handle_key_event` matches on; every
other variant (function keys, page up/down, media keys, …) hits the
`_ => None` arm and is collapsed into `OtherKey`. -/
inductive KeyCode where
  | Backspace | Enter | LeftArrow | RightArrow | HomeKey | EndKey
  | UpArrow | DownArrow | Tab | DeleteKey | InsertKey | Esc
  | Char (c : Nat)
  | OtherKey
deriving DecidableEq, Repr

/-- crossterm's `KeyModifiers` bit for CONTROL. -/
def CONTROL : Nat := 0x2

/-- `KeyEventKind`. -/
inductive KeyEventKind where
  | Press | Repeat | Release
deriving DecidableEq, Repr

/-- crossterm `KeyEvent`: `modifiers` and `state` are bitsets (`Nat`);
`KeyEventState::NONE` is `0`. -/
structure KeyEvent where
  code : KeyCode
  modifiers : Nat
  kind : KeyEventKind
  state : Nat
deriving DecidableEq, Repr

/-- crossterm `Event`: everything that is not a key event (mouse, focus,
resize, paste) lands in the `println!("Unrecognized Event…")` arm of the
monitor loop, so it is collapsed into one constructor. -/
inductive Event where
  | Key (k : KeyEvent)
  | OtherEvent
deriving DecidableEq, Repr

/-- `Eol` (src/main.rs): the `--enter` option. -/
inductive Eol where
  | Cr | Crlf | Lf
deriving DecidableEq, Repr

/-- `Eol::bytes`. -/
def Eol.bytes : Eol → List Nat
  | .Cr => [0x0D]
  | .Crlf => [0x0D, 0x0A]
  | .Lf => [0x0A]

/-- The fields of `Config` (src/main.rs) that the session engine reads;
the line parameters (baud, parity, …) are consumed only when opening the
port and are omitted. -/
structure Config where
  enter : Eol
  ctrl_y_exit : Bool
  echo : Bool
deriving DecidableEq, Repr

/-- `exit_char`: the lowercase letter whose Control-chord exits. -/
def exit_char (config : Config) : Nat :=
  if config.ctrl_y_exit then 0x79 else 0x78

/-- `exit_code`: the full `Event::Key` value compared against incoming
events (`kind: Press`, `state: NONE`). -/
def exit_code (config : Config) : Event :=
  .Key ⟨.Char (exit_char config), CONTROL, .Press, 0⟩

/-- UTF-8 encoding of a unicode scalar value (Rust `char::encode_utf8`). -/
def utf8Encode (c : Nat) : List Nat :=
  if c < 0x80 then [c]
  else if c < 0x800 then [0xC0 + c / 64, 0x80 + c % 64]
  else if c < 0x10000 then
    [0xE0 + c / 4096, 0x80 + c / 64 % 64, 0x80 + c % 64]
  else
    [0xF0 + c / 0x40000, 0x80 + c / 4096 % 64, 0x80 + c / 64 % 64, 0x80 + c % 64]

/-- Mirror of `handle_key_event` (src/main.rs).  The debug/echo printing
side effects are not modelled; the returned value is the Rust
`Result<Option<Bytes>>`.  `ch as u8` is `c % 256`. -/
def handle_key_event (key_event : KeyEvent) (config : Config) :
    Except ProgramError (Option (List Nat)) :=
  match key_event.code with
  | .Backspace => .ok (some [0x08])
  | .Enter => .ok (some config.enter.bytes)
  | .LeftArrow => .ok (some [0x1b, 0x5b, 0x44])
  | .RightArrow => .ok (some [0x1b, 0x5b, 0x43])
  | .HomeKey => .ok (some [0x1b, 0x5b, 0x48])
  | .EndKey => .ok (some [0x1b, 0x5b, 0x46])
  | .UpArrow => .ok (some [0x1b, 0x5b, 0x41])
  | .DownArrow => .ok (some [0x1b, 0x5b, 0x42])
  | .Tab => .ok (some [0x09])
  | .DeleteKey => .ok (some [0x1b, 0x5b, 0x33, 0x7e])
  | .InsertKey => .ok (some [0x1b, 0x5b, 0x32, 0x7e])
  | .Esc => .ok (some [0x1b])
  | .Char c =>
    if key_event.modifiers &&& CONTROL = CONTROL then
      if (0x61 ≤ c && c ≤ 0x7a) || c = 0x20 then
        .ok (some [c % 256 &&& 0x1f])
      else if 0x34 ≤ c && c ≤ 0x37 then
        -- crossterm returns Control-4 thru 7 for \x1c thru \x1f
        .ok (some [(c % 256 + 8) &&& 0x1f])
      else
        .ok (some (utf8Encode c))
    else
      .ok (some (utf8Encode c))
  | .OtherKey => .ok none

/-! ## The monitor loop (src/main.rs, `monitor`)

The `select!` loop is modelled as a transition function over the sequence
of source completions it observes, in the order the select delivers them:

* `term (.ev e)` — the crossterm `EventStream` yielded `Some(Ok(e))`;
* `term .err` / `term .closed` — it yielded `Some(Err(_))` / `None`;
* `serial (.ok s)` — the `FramedRead` over the `StringDecoder` yielded a
  decoded string `s` (`Some(Ok(s))`);
* `serial .err` / `serial .closed` — it yielded `Some(Err(_))` / `None`;
* `pollSendDone` — the forwarding future `poll_send` completed.

The loop's observable state is the FIFO of chunks pushed into the
unbounded `serial_writer` channel and the decoded strings printed to the
display. -/

/-- One completion of the crossterm event source. -/
inductive TermRead where
  | ev (e : Event)
  | err
  | closed
deriving DecidableEq, Repr

/-- One completion of the serial read source (items are decoded strings,
modelled as UTF-8 byte lists). -/
inductive SerialRead where
  | ok (s : List Nat)
  | err
  | closed
deriving DecidableEq, Repr

/-- One iteration's selected branch in the `select!`. -/
inductive LoopMsg where
  | pollSendDone
  | term (t : TermRead)
  | serial (s : SerialRead)
deriving DecidableEq, Repr

/-- Why the loop `break`s. -/
inductive ExitReason where
  | userExit
  | serialError
deriving DecidableEq, Repr

/-- Observable state of the monitor loop. -/
structure MonitorState where
  /-- chunks sent through `serial_writer.unbounded_send`, in FIFO order. -/
  sent : List (List Nat)
  /-- decoded strings forwarded to the display. -/
  displayed : List (List Nat)
deriving DecidableEq, Repr

/-- The empty initial state. -/
def MonitorState.init : MonitorState := ⟨[], []⟩

/-- One iteration of the `loop { select! { … } }` body: returns the new
state and `some reason` iff this iteration executed `break`.  The `?` on
`handle_key_event` propagates its error. -/
def monitorStep (config : Config) (st : MonitorState) :
    LoopMsg → Except ProgramError (MonitorState × Option ExitReason)
  | .pollSendDone => .ok (st, none)
  | .term (.ev e) =>
    if e = exit_code config then
      .ok (st, some .userExit)
    else
      match e with
      | .Key key_event =>
        match handle_key_event key_event config with
        | .error er => .error er
        | .ok (some key) => .ok ({ st with sent := st.sent ++ [key] }, none)
        | .ok none => .ok (st, none)
      | .OtherEvent => .ok (st, none)      -- "Unrecognized Event" println
  | .term .err => .ok (st, none)           -- "crossterm Error" println, no break
  | .term .closed => .ok (st, none)        -- "maybe_event returned None", no break
  | .serial (.ok s) =>
    .ok ({ st with displayed := st.displayed ++ [s] }, none)
  | .serial .err => .ok (st, some .serialError)  -- "Serial Error" println; break
  | .serial .closed => .ok (st, none)      -- "maybe_serial returned None", no break

/-- Run the loop over a sequence of observed source completions; once an
iteration breaks, no later completion is consumed.  `none` as the reason
means the supplied sequence ran out with the loop still running. -/
def monitorRun (config : Config) :
    MonitorState → List LoopMsg → Except ProgramError (MonitorState × Option ExitReason)
  | st, [] => .ok (st, none)
  | st, m :: ms =>
    match monitorStep config st m with
    | .error e => .error e
    | .ok (st', some r) => .ok (st', some r)
    | .ok (st', none) => monitorRun config st' ms

/-- Terminal raw-mode actions performed by `main` around the session. -/
inductive TermModeAction where
  | enableRaw
  | disableRaw
deriving DecidableEq, Repr

/-- Mirror of the session block of `main` (src/main.rs): `enable_raw_mode()?`,
then `let result = monitor(..).await`, then `disable_raw_mode()?`, then
`result?` — the raw-mode restore happens before the monitor result is
propagated, so it does not depend on that result. -/
def run_session (config : Config) (msgs : List LoopMsg) :
    List TermModeAction × Except ProgramError (MonitorState × Option ExitReason) :=
  let result := monitorRun config MonitorState.init msgs
  ([TermModeAction.enableRaw, TermModeAction.disableRaw], result)

/-- `q` is a (not necessarily strict) prefix of the encoding of some valid
UTF-8 character. -/
def charEncPrefix : List Nat → Bool
  | [] => true
  | [b0] => b0 < 0x80 || (0xC2 ≤ b0 && b0 < 0xF5)
  | [b0, b1] =>
    (0xC2 ≤ b0 && b0 < 0xE0 && isCont b1) ||
    (0xE0 ≤ b0 && b0 < 0xF0 && cont2ok b0 b1) ||
    (0xF0 ≤ b0 && b0 < 0xF5 && cont3ok b0 b1)
  | [b0, b1, b2] =>
    (0xE0 ≤ b0 && b0 < 0xF0 && cont2ok b0 b1 && isCont b2) ||
    (0xF0 ≤ b0 && b0 < 0xF5 && cont3ok b0 b1 && isCont b2)
  | [b0, b1, b2, b3] =>
    0xF0 ≤ b0 && b0 < 0xF5 && cont3ok b0 b1 && isCont b2 && isCont b3
  | _ => false

end SerialMonitor

-- sanity examples (decoder computes)
example : SerialMonitor.validUtf8 [0x61, 0xC3, 0xA9] = true := by decide
example : SerialMonitor.validUtf8 [0x80] = false := by decide
example :
    SerialMonitor.StringDecoder.new.decode [0x41, 0x80] =
      (.ok (some [0x41]), ⟨[]⟩, [0x80]) := rfl
example :
    (SerialMonitor.feedPieces SerialMonitor.StringDecoder.new [[0xC3], [0xA9]]).1 =
      [0xC3, 0xA9] := by decide
example :
    (SerialMonitor.feedPieces SerialMonitor.StringDecoder.new [[0x80, 0x80, 0x41]]).1 =
      SerialMonitor.replacementChar ++ [0x41] := by decide

example :
    SerialMonitor.handle_key_event ⟨.Char 0x61, 2, .Press, 0⟩ ⟨.Cr, false, false⟩ =
      .ok (some [0x01]) := rfl
example :
    SerialMonitor.handle_key_event ⟨.Char 0x34, 2, .Press, 0⟩ ⟨.Cr, false, false⟩ =
      .ok (some [0x1C]) := rfl
example :
    SerialMonitor.monitorRun ⟨.Cr, false, false⟩ .init
      [.term .closed, .term (.ev (.Key ⟨.Char 0x61, 0, .Press, 0⟩))] =
      .ok (⟨[[0x61]], []⟩, none) := rfl
example :
    SerialMonitor.monitorRun ⟨.Cr, false, false⟩ .init
      [.term (.ev (SerialMonitor.exit_code ⟨.Cr, false, false⟩)),
       .term (.ev (.Key ⟨.Char 0x61, 0, .Press, 0⟩))] =
      .ok (⟨[], []⟩, some .userExit) := rfl

namespace SerialMonitor

/-! ## Basic facts about `utf8FirstChar` and `utf8ValidUpTo` -/

theorem utf8FirstChar_bounds {l : List Nat} {n : Nat}
    (h : utf8FirstChar l = some n) : 1 ≤ n ∧ n ≤ 4 ∧ n ≤ l.length := by
  rcases l with _ | ⟨b0, _ | ⟨b1, _ | ⟨b2, _ | ⟨b3, t⟩⟩⟩⟩ <;>
    simp only [utf8FirstChar] at h
  all_goals try exact Option.noConfusion h
  all_goals split_ifs at h <;> simp_all <;> omega

theorem utf8ValidUpToGo_nil (f : Nat) : utf8ValidUpToGo f [] = 0 := by
  cases f <;> simp [utf8ValidUpToGo, utf8FirstChar]

theorem utf8ValidUpToGo_fuel :
    ∀ (f g : Nat) (l : List Nat), l.length ≤ f → l.length ≤ g →
      utf8ValidUpToGo f l = utf8ValidUpToGo g l := by
  intro f
  induction f with
  | zero =>
    intro g l hf _
    have : l = [] := List.length_eq_zero.mp (Nat.le_zero.mp hf)
    subst this
    simp [utf8ValidUpToGo_nil]
  | succ f ih =>
    intro g l hf hg
    cases g with
    | zero =>
      have : l = [] := List.length_eq_zero.mp (Nat.le_zero.mp hg)
      subst this
      simp [utf8ValidUpToGo_nil]
    | succ g =>
      simp only [utf8ValidUpToGo]
      cases h : utf8FirstChar l with
      | none => rfl
      | some n =>
        have hb := utf8FirstChar_bounds h
        have hd : (l.drop n).length ≤ f := by
          simp only [List.length_drop]; omega
        have hd' : (l.drop n).length ≤ g := by
          simp only [List.length_drop]; omega
        show n + utf8ValidUpToGo f (l.drop n) = n + utf8ValidUpToGo g (l.drop n)
        rw [ih g (l.drop n) hd hd']

theorem utf8ValidUpToGo_eq {f : Nat} {l : List Nat} (h : l.length ≤ f) :
    utf8ValidUpToGo f l = utf8ValidUpTo l :=
  utf8ValidUpToGo_fuel f l.length l h le_rfl

theorem utf8ValidUpTo_none {l : List Nat} (h : utf8FirstChar l = none) :
    utf8ValidUpTo l = 0 := by
  cases l with
  | nil => simp [utf8ValidUpTo, utf8ValidUpToGo_nil]
  | cons b rest => simp [utf8ValidUpTo, utf8ValidUpToGo, h]

theorem utf8ValidUpTo_some {l : List Nat} {n : Nat}
    (h : utf8FirstChar l = some n) :
    utf8ValidUpTo l = n + utf8ValidUpTo (l.drop n) := by
  have hb := utf8FirstChar_bounds h
  cases l with
  | nil => simp [utf8FirstChar] at h
  | cons b rest =>
    show utf8ValidUpToGo (b :: rest).length (b :: rest) = _
    simp only [List.length_cons, utf8ValidUpToGo, h]
    congr 1
    exact utf8ValidUpToGo_eq (by simp only [List.length_drop]; simp at hb ⊢; omega)

theorem utf8ValidUpTo_le (l : List Nat) : utf8ValidUpTo l ≤ l.length := by
  cases h : utf8FirstChar l with
  | none => simp [utf8ValidUpTo_none h]
  | some n =>
    have hb := utf8FirstChar_bounds h
    have ih := utf8ValidUpTo_le (l.drop n)
    rw [utf8ValidUpTo_some h]
    simp only [List.length_drop] at ih
    omega
termination_by l.length
decreasing_by
  simp only [List.length_drop]
  omega

theorem utf8ValidUpTo_nil : utf8ValidUpTo [] = 0 := by
  simp [utf8ValidUpTo, utf8ValidUpToGo_nil]

theorem validUtf8_nil : validUtf8 [] = true := by
  simp [validUtf8, utf8ValidUpTo_nil]

theorem validUtf8_firstChar {l : List Nat} (h : validUtf8 l = true)
    (hne : l ≠ []) : ∃ n, utf8FirstChar l = some n := by
  cases hf : utf8FirstChar l with
  | none =>
    exfalso
    have h0 := utf8ValidUpTo_none hf
    have : l.length = 0 := by
      simp only [validUtf8, decide_eq_true_eq] at h
      omega
    exact hne (List.length_eq_zero.mp this)
  | some n => exact ⟨n, rfl⟩

theorem validUtf8_drop {l : List Nat} {n : Nat} (h : validUtf8 l = true)
    (hf : utf8FirstChar l = some n) : validUtf8 (l.drop n) = true := by
  have hb := utf8FirstChar_bounds hf
  have hs := utf8ValidUpTo_some hf
  simp only [validUtf8, decide_eq_true_eq] at h ⊢
  simp only [List.length_drop]
  omega

end SerialMonitor

namespace SerialMonitor

/-! ## Locality of `utf8FirstChar`

`utf8FirstChar` inspects at most the first four bytes, so it is stable
under appending once enough bytes are present, truncating a character
makes it undecodable, and the bytes after the first are continuations. -/

theorem cont2ok_isCont {b0 b1 : Nat} (h : cont2ok b0 b1 = true) :
    isCont b1 = true := by
  simp only [cont2ok, isCont] at h ⊢
  split_ifs at h <;> simp_all <;> omega

theorem cont3ok_isCont {b0 b1 : Nat} (h : cont3ok b0 b1 = true) :
    isCont b1 = true := by
  simp only [cont3ok, isCont] at h ⊢
  split_ifs at h <;> simp_all <;> omega

theorem utf8FirstChar_cont_start {b : Nat} (h : isCont b = true)
    (w : List Nat) : utf8FirstChar (b :: w) = none := by
  simp only [isCont, Bool.and_eq_true, decide_eq_true_eq] at h
  rcases w with _ | ⟨b1, _ | ⟨b2, _ | ⟨b3, t⟩⟩⟩ <;>
    simp only [utf8FirstChar] <;> split_ifs <;> first | rfl | omega

theorem utf8FirstChar_class {b0 : Nat} {t : List Nat} {n : Nat}
    (h : utf8FirstChar (b0 :: t) = some n) :
    (n = 1 ∧ b0 < 0x80) ∨ (n = 2 ∧ 0xC2 ≤ b0 ∧ b0 < 0xE0) ∨
    (n = 3 ∧ 0xE0 ≤ b0 ∧ b0 < 0xF0) ∨ (n = 4 ∧ 0xF0 ≤ b0 ∧ b0 < 0xF5) := by
  rcases t with _ | ⟨b1, _ | ⟨b2, _ | ⟨b3, t⟩⟩⟩ <;>
    simp only [utf8FirstChar] at h <;>
    split_ifs at h <;> simp_all <;> omega

theorem utf8FirstChar_append {x : List Nat} {n : Nat} (y : List Nat)
    (h : utf8FirstChar x = some n) (hn : n ≤ x.length) :
    utf8FirstChar (x ++ y) = some n := by
  rcases x with _ | ⟨b0, t⟩
  · exact Option.noConfusion h
  have hcl := utf8FirstChar_class h
  simp only [List.length_cons] at hn
  simp only [List.cons_append]
  rcases hcl with ⟨rfl, hc⟩ | ⟨rfl, hc⟩ | ⟨rfl, hc⟩ | ⟨rfl, hc⟩
  · simp only [utf8FirstChar]
    rw [if_pos hc]
  · rcases t with _ | ⟨b1, t⟩
    · simp only [List.length_nil] at hn; omega
    · simp only [List.cons_append]
      simp only [utf8FirstChar] at h ⊢ <;> split_ifs at h ⊢ <;> simp_all <;> omega
  · rcases t with _ | ⟨b1, _ | ⟨b2, t⟩⟩
    · simp only [List.length_nil] at hn; omega
    · simp only [List.length_cons, List.length_nil] at hn; omega
    · simp only [List.cons_append]
      simp only [utf8FirstChar] at h ⊢ <;> split_ifs at h ⊢ <;> simp_all <;> omega
  · rcases t with _ | ⟨b1, _ | ⟨b2, _ | ⟨b3, t⟩⟩⟩
    · simp only [List.length_nil] at hn; omega
    · simp only [List.length_cons, List.length_nil] at hn; omega
    · simp only [List.length_cons, List.length_nil] at hn; omega
    · simp only [List.cons_append]
      simp only [utf8FirstChar] at h ⊢ <;> split_ifs at h ⊢ <;> simp_all <;> omega

theorem utf8FirstChar_of_append {x : List Nat} {n : Nat} {y : List Nat}
    (h : utf8FirstChar (x ++ y) = some n) (hn : n ≤ x.length) :
    utf8FirstChar x = some n := by
  have hb := utf8FirstChar_bounds h
  rcases x with _ | ⟨b0, t⟩
  · simp only [List.length_nil] at hn; omega
  have hcl : (n = 1 ∧ b0 < 0x80) ∨ (n = 2 ∧ 0xC2 ≤ b0 ∧ b0 < 0xE0) ∨
      (n = 3 ∧ 0xE0 ≤ b0 ∧ b0 < 0xF0) ∨ (n = 4 ∧ 0xF0 ≤ b0 ∧ b0 < 0xF5) := by
    apply utf8FirstChar_class (t := t ++ y)
    simpa using h
  simp only [List.length_cons] at hn
  simp only [List.cons_append] at h
  rcases hcl with ⟨rfl, hc⟩ | ⟨rfl, hc⟩ | ⟨rfl, hc⟩ | ⟨rfl, hc⟩
  · simp only [utf8FirstChar]
    rw [if_pos hc]
  · rcases t with _ | ⟨b1, t⟩
    · simp only [List.length_nil] at hn; omega
    · simp only [List.cons_append] at h
      simp only [utf8FirstChar] at h ⊢ <;> split_ifs at h ⊢ <;> simp_all <;> omega
  · rcases t with _ | ⟨b1, _ | ⟨b2, t⟩⟩
    · simp only [List.length_nil] at hn; omega
    · simp only [List.length_cons, List.length_nil] at hn; omega
    · simp only [List.cons_append] at h
      simp only [utf8FirstChar] at h ⊢ <;> split_ifs at h ⊢ <;> simp_all <;> omega
  · rcases t with _ | ⟨b1, _ | ⟨b2, _ | ⟨b3, t⟩⟩⟩
    · simp only [List.length_nil] at hn; omega
    · simp only [List.length_cons, List.length_nil] at hn; omega
    · simp only [List.length_cons, List.length_nil] at hn; omega
    · simp only [List.cons_append] at h
      simp only [utf8FirstChar] at h ⊢ <;> split_ifs at h ⊢ <;> simp_all <;> omega

/-- A list that starts a multi-byte character but is shorter than that
character decodes to nothing. -/
theorem utf8FirstChar_none_short {b0 : Nat} {t : List Nat} {n : Nat}
    (hclass : (n = 2 ∧ 0xC2 ≤ b0 ∧ b0 < 0xE0) ∨ (n = 3 ∧ 0xE0 ≤ b0 ∧ b0 < 0xF0) ∨
      (n = 4 ∧ 0xF0 ≤ b0 ∧ b0 < 0xF5))
    (hshort : t.length + 1 < n) :
    utf8FirstChar (b0 :: t) = none := by
  rcases t with _ | ⟨b1, _ | ⟨b2, _ | ⟨b3, t⟩⟩⟩ <;>
    simp only [utf8FirstChar, List.length_cons, List.length_nil] at hshort ⊢ <;>
    split_ifs <;>
    first
      | rfl
      | omega
      | (simp_all; omega)
      | simp_all

theorem utf8FirstChar_take_none {z : List Nat} {n m : Nat}
    (h : utf8FirstChar z = some n) (h0 : 0 < m) (hm : m < n) :
    utf8FirstChar (z.take m) = none := by
  rcases z with _ | ⟨b0, t⟩
  · exact Option.noConfusion h
  have hcl := utf8FirstChar_class h
  have hb := utf8FirstChar_bounds h
  have htake : (b0 :: t).take m = b0 :: t.take (m - 1) := by
    cases m with
    | zero => omega
    | succ k => simp
  rw [htake]
  apply utf8FirstChar_none_short
  · rcases hcl with ⟨rfl, _⟩ | hcl
    · omega
    · exact hcl
  · have := List.length_take (m - 1) t
    omega

theorem utf8FirstChar_elim2 {b0 b1 : Nat} {t : List Nat} {n : Nat}
    (h : utf8FirstChar (b0 :: b1 :: t) = some n) (hn : 2 ≤ n) :
    isCont b1 = true := by
  rcases t with _ | ⟨b2, _ | ⟨b3, t⟩⟩ <;>
    simp only [utf8FirstChar] at h <;>
    split_ifs at h <;> simp_all
  all_goals first
    | omega
    | assumption
    | (rename_i hc; exact cont2ok_isCont hc.1)
    | (rename_i hc; exact cont3ok_isCont hc.1.1)
    | (rename_i hc; exact cont2ok_isCont hc)
    | (rename_i hc; exact cont3ok_isCont hc)

theorem utf8FirstChar_elim3 {b0 b1 b2 : Nat} {t : List Nat} {n : Nat}
    (h : utf8FirstChar (b0 :: b1 :: b2 :: t) = some n) (hn : 3 ≤ n) :
    isCont b2 = true := by
  rcases t with _ | ⟨b3, t⟩ <;>
    simp only [utf8FirstChar] at h <;>
    split_ifs at h <;> simp_all
  all_goals first
    | omega
    | assumption
    | (rename_i hc; exact hc.2)
    | (rename_i hc; exact hc.1.2)

theorem utf8FirstChar_elim4 {b0 b1 b2 b3 : Nat} {t : List Nat} {n : Nat}
    (h : utf8FirstChar (b0 :: b1 :: b2 :: b3 :: t) = some n) (hn : 4 ≤ n) :
    isCont b3 = true := by
  simp only [utf8FirstChar] at h
  split_ifs at h <;> simp_all
  all_goals first
    | omega
    | assumption
    | (rename_i hc; exact hc.2)

/-- Inside the first character of `p ++ b :: w`, every byte after the
leading one is a continuation byte. -/
theorem utf8FirstChar_cont_at {p : List Nat} {b : Nat} {w : List Nat} {n : Nat}
    (h : utf8FirstChar (p ++ b :: w) = some n) (h1 : 1 ≤ p.length)
    (h2 : p.length < n) : isCont b = true := by
  have hb := utf8FirstChar_bounds h
  rcases p with _ | ⟨a0, _ | ⟨a1, _ | ⟨a2, _ | ⟨a3, t⟩⟩⟩⟩
  · simp only [List.length_nil] at h1; omega
  · exact utf8FirstChar_elim2 h (by simp only [List.length_cons] at h2 ⊢; omega)
  · exact utf8FirstChar_elim3 h (by simp only [List.length_cons] at h2 ⊢; omega)
  · exact utf8FirstChar_elim4 h (by simp only [List.length_cons] at h2 ⊢; omega)
  · exfalso
    simp only [List.length_cons] at h2
    omega

theorem charEncPrefix_take {l : List Nat} {n : Nat}
    (h : utf8FirstChar l = some n) {m : Nat} (h0 : 0 < m) (hm : m ≤ n) :
    charEncPrefix (l.take m) = true := by
  rcases l with _ | ⟨b0, _ | ⟨b1, _ | ⟨b2, _ | ⟨b3, t⟩⟩⟩⟩
  · exact Option.noConfusion h
  all_goals
    simp only [utf8FirstChar] at h <;>
    split_ifs at h <;>
    first
      | exact Option.noConfusion h
      | (injection h with h
         subst h
         interval_cases m <;>
           simp_all [List.take, charEncPrefix, isCont, cont2ok, cont3ok] <;>
           first
             | rfl
             | omega
             | (split_ifs <;> try simp_all) <;> omega)

/-! ## Composition of validity across concatenation -/

theorem utf8ValidUpTo_append {x : List Nat} (y : List Nat)
    (hx : validUtf8 x = true) :
    utf8ValidUpTo (x ++ y) = x.length + utf8ValidUpTo y := by
  rcases eq_or_ne x [] with rfl | hne
  · simp
  · obtain ⟨n, hf⟩ := validUtf8_firstChar hx hne
    have hb := utf8FirstChar_bounds hf
    have hfa := utf8FirstChar_append y hf hb.2.2
    have ih := utf8ValidUpTo_append (x := x.drop n) y (validUtf8_drop hx hf)
    have hxv : utf8ValidUpTo x = x.length := by
      simpa [validUtf8] using hx
    have hsome := utf8ValidUpTo_some hf
    rw [utf8ValidUpTo_some hfa, List.drop_append_of_le_length hb.2.2, ih,
      List.length_drop]
    omega
termination_by x.length
decreasing_by
  have hb2 := utf8FirstChar_bounds hf
  simp only [List.length_drop]
  have : x.length ≠ 0 := fun h0 => hne (List.length_eq_zero.mp h0)
  omega

theorem validUtf8_append {x y : List Nat} (hx : validUtf8 x = true)
    (hy : validUtf8 y = true) : validUtf8 (x ++ y) = true := by
  simp only [validUtf8, decide_eq_true_eq] at hy ⊢
  rw [utf8ValidUpTo_append y hx, List.length_append, hy]

theorem validUtf8_of_append_right {x y : List Nat}
    (hxy : validUtf8 (x ++ y) = true) (hx : validUtf8 x = true) :
    validUtf8 y = true := by
  simp only [validUtf8, decide_eq_true_eq] at hxy ⊢
  rw [utf8ValidUpTo_append y hx, List.length_append] at hxy
  omega

/-- The first character of `l` is itself a valid string. -/
theorem validUtf8_take_firstChar {l : List Nat} {n : Nat}
    (h : utf8FirstChar l = some n) : validUtf8 (l.take n) = true := by
  have hb := utf8FirstChar_bounds h
  have hlen : (l.take n).length = n := by
    rw [List.length_take]
    omega
  have hft : utf8FirstChar (l.take n) = some n := by
    apply utf8FirstChar_of_append (y := l.drop n)
    · rw [List.take_append_drop]; exact h
    · omega
  have hdrop : (l.take n).drop n = [] :=
    List.drop_eq_nil_iff.mpr (by omega)
  simp only [validUtf8, decide_eq_true_eq]
  rw [utf8ValidUpTo_some hft, hdrop, utf8ValidUpTo_nil, hlen]
  omega

/-- The valid prefix split off by `valid_up_to` is itself valid. -/
theorem validUtf8_take_vut (l : List Nat) :
    validUtf8 (l.take (utf8ValidUpTo l)) = true := by
  cases h : utf8FirstChar l with
  | none => simp [utf8ValidUpTo_none h, validUtf8_nil]
  | some n =>
    have hb := utf8FirstChar_bounds h
    have ih := validUtf8_take_vut (l.drop n)
    rw [utf8ValidUpTo_some h, List.take_add]
    exact validUtf8_append (validUtf8_take_firstChar h) ih
termination_by l.length
decreasing_by
  have hb2 := utf8FirstChar_bounds h
  have : l ≠ [] := by
    intro h0
    subst h0
    simp [utf8FirstChar] at h
  have : l.length ≠ 0 := fun h0 => this (List.length_eq_zero.mp h0)
  simp only [List.length_drop]
  omega

/-- After the valid prefix, no character can be decoded (maximality of
`valid_up_to`). -/
theorem utf8FirstChar_drop_vut (l : List Nat) :
    utf8FirstChar (l.drop (utf8ValidUpTo l)) = none := by
  cases h : utf8FirstChar l with
  | none => simpa [utf8ValidUpTo_none h] using h
  | some n =>
    have hb := utf8FirstChar_bounds h
    have ih := utf8FirstChar_drop_vut (l.drop n)
    rw [utf8ValidUpTo_some h, ← List.drop_drop]
    exact ih
termination_by l.length
decreasing_by
  have hb2 := utf8FirstChar_bounds h
  have : l ≠ [] := by
    intro h0
    subst h0
    simp [utf8FirstChar] at h
  have : l.length ≠ 0 := fun h0 => this (List.length_eq_zero.mp h0)
  simp only [List.length_drop]
  omega

theorem validUtf8_false_of_firstChar_none {l : List Nat}
    (h : utf8FirstChar l = none) (hne : l ≠ []) : validUtf8 l = false := by
  have h0 := utf8ValidUpTo_none h
  have : l.length ≠ 0 := fun hl => hne (List.length_eq_zero.mp hl)
  simp only [validUtf8, decide_eq_false_iff_not]
  omega

theorem isCharEnc_valid {e : List Nat} (h : isCharEnc e) :
    validUtf8 e = true := by
  have hb := utf8FirstChar_bounds h
  simp only [validUtf8, decide_eq_true_eq]
  rw [utf8ValidUpTo_some h, List.drop_eq_nil_iff.mpr le_rfl, utf8ValidUpTo_nil]
  omega

/-! ## Evaluation rules for `decode` -/

theorem decode_ok_empty {d : StringDecoder} {b : Nat} {rest : List Nat}
    (hd : d.incomplete = [])
    (hv : utf8ValidUpTo (b :: rest) = (b :: rest).length) :
    d.decode (b :: rest) = (.ok (some (b :: rest)), d, []) := by
  simp [StringDecoder.decode, hv, hd]

theorem decode_ok_pending {d : StringDecoder} {b : Nat} {rest : List Nat}
    (hd : d.incomplete ≠ [])
    (hv : utf8ValidUpTo (b :: rest) = (b :: rest).length) :
    d.decode (b :: rest) =
      (.ok (some (replacementChar ++ b :: rest)), ⟨[]⟩, []) := by
  have hpos : d.incomplete.length > 0 := List.length_pos.mpr hd
  simp [StringDecoder.decode, hv, hpos]

theorem decode_prefix_empty {d : StringDecoder} {b : Nat} {rest : List Nat}
    (hd : d.incomplete = [])
    (hv : utf8ValidUpTo (b :: rest) ≠ (b :: rest).length)
    (hpos : 0 < utf8ValidUpTo (b :: rest)) :
    d.decode (b :: rest) =
      (.ok (some ((b :: rest).take (utf8ValidUpTo (b :: rest)))), d,
        (b :: rest).drop (utf8ValidUpTo (b :: rest))) := by
  have hv' : utf8ValidUpTo (b :: rest) ≠ rest.length + 1 := by
    simpa using hv
  simp [StringDecoder.decode, hv', hpos, hd]

theorem decode_prefix_pending {d : StringDecoder} {b : Nat} {rest : List Nat}
    (hd : d.incomplete ≠ [])
    (hv : utf8ValidUpTo (b :: rest) ≠ (b :: rest).length)
    (hpos : 0 < utf8ValidUpTo (b :: rest)) :
    d.decode (b :: rest) =
      (.ok (some (replacementChar ++ (b :: rest).take (utf8ValidUpTo (b :: rest)))),
        ⟨[]⟩, (b :: rest).drop (utf8ValidUpTo (b :: rest))) := by
  have hp : d.incomplete.length > 0 := List.length_pos.mpr hd
  have hv' : utf8ValidUpTo (b :: rest) ≠ rest.length + 1 := by
    simpa using hv
  simp [StringDecoder.decode, hv', hpos, hp]

theorem decode_err_char {d : StringDecoder} {b : Nat} {rest : List Nat}
    (hv0 : utf8ValidUpTo (b :: rest) = 0)
    (hbuf : validUtf8 (d.incomplete ++ [b]) = true) :
    d.decode (b :: rest) = (.ok (some (d.incomplete ++ [b])), ⟨[]⟩, rest) := by
  have hne : utf8ValidUpTo (b :: rest) ≠ (b :: rest).length := by
    simp only [List.length_cons]; omega
  simp only [validUtf8, decide_eq_true_eq] at hbuf
  simp [StringDecoder.decode, hne, hv0, hbuf]

theorem decode_err_full {d : StringDecoder} {b : Nat} {rest : List Nat}
    (hv0 : utf8ValidUpTo (b :: rest) = 0)
    (hbuf : validUtf8 (d.incomplete ++ [b]) = false)
    (hlen : (d.incomplete ++ [b]).length = 4) :
    d.decode (b :: rest) = (.ok (some replacementChar), ⟨[]⟩, rest) := by
  have hne : utf8ValidUpTo (b :: rest) ≠ (b :: rest).length := by
    simp only [List.length_cons]; omega
  simp only [validUtf8, decide_eq_false_iff_not] at hbuf
  have hbuf4 : utf8ValidUpTo (d.incomplete ++ [b]) ≠ 4 := by
    rw [hlen] at hbuf
    exact hbuf
  have hlen3 : d.incomplete.length = 3 := by
    simpa using hlen
  simp [StringDecoder.decode, hne, hv0, hbuf4, hlen3]

theorem decode_err_buffer {d : StringDecoder} {b : Nat} {rest : List Nat}
    (hv0 : utf8ValidUpTo (b :: rest) = 0)
    (hbuf : validUtf8 (d.incomplete ++ [b]) = false)
    (hlen : (d.incomplete ++ [b]).length ≠ 4) :
    d.decode (b :: rest) = (.ok none, ⟨d.incomplete ++ [b]⟩, rest) := by
  have hne : utf8ValidUpTo (b :: rest) ≠ (b :: rest).length := by
    simp only [List.length_cons]; omega
  simp only [validUtf8, decide_eq_false_iff_not] at hbuf
  have hbuf' : utf8ValidUpTo (d.incomplete ++ [b]) ≠ d.incomplete.length + 1 := by
    simpa using hbuf
  have hlen3 : d.incomplete.length ≠ 3 := by
    simp only [List.length_append, List.length_cons, List.length_nil] at hlen
    omega
  simp [StringDecoder.decode, hne, hv0, hbuf', hlen3]

theorem decodeAllGo_nil (fuel : Nat) (d : StringDecoder) :
    decodeAllGo fuel d [] = ([], d) := by
  cases fuel <;> rfl

/-! ## The main decoder invariant

While the byte stream seen so far extends to a valid UTF-8 string, the
driver emits exactly the bytes it consumes (pending bytes excluded), and
the pending buffer is always a strict prefix of a character. -/

theorem decodeAllGo_valid :
    ∀ (fuel : Nat) (p src r : List Nat), src.length ≤ fuel →
    validUtf8 (p ++ src ++ r) = true →
    (p = [] ∨ (charEncPrefix p = true ∧ utf8FirstChar p = none)) →
    ∃ out p',
      decodeAllGo fuel ⟨p⟩ src = (out, ⟨p'⟩) ∧
      out ++ p' = p ++ src ∧
      validUtf8 out = true ∧
      (p' = [] ∨ (charEncPrefix p' = true ∧ utf8FirstChar p' = none)) := by
  intro fuel
  induction fuel with
  | zero =>
    intro p src r hf hval hp
    have hsrc : src = [] := List.length_eq_zero.mp (Nat.le_zero.mp hf)
    subst hsrc
    exact ⟨[], p, rfl, by simp, validUtf8_nil, hp⟩
  | succ fuel ih =>
    intro p src r hf hval hp
    cases src with
    | nil =>
      exact ⟨[], p, decodeAllGo_nil _ _, by simp, validUtf8_nil, hp⟩
    | cons b rest =>
      by_cases hpe : p = []
      · subst hpe
        -- no pending bytes
        simp only [List.nil_append] at hval
        by_cases hv : utf8ValidUpTo (b :: rest) = (b :: rest).length
        · -- whole buffer valid: single `Ok` step consumes it
          refine ⟨b :: rest, [], ?_, by simp, by simp [validUtf8, hv], Or.inl rfl⟩
          simp only [decodeAllGo, decode_ok_empty rfl hv, decodeAllGo_nil]
          simp
        · by_cases hpos : 0 < utf8ValidUpTo (b :: rest)
          · -- valid prefix split off, tail left in the buffer
            set v := utf8ValidUpTo (b :: rest) with hvdef
            have htake : validUtf8 ((b :: rest).take v) = true :=
              validUtf8_take_vut (b :: rest)
            have hrest : validUtf8 ((b :: rest).drop v ++ r) = true := by
              apply validUtf8_of_append_right (x := (b :: rest).take v)
              · rw [← List.append_assoc, List.take_append_drop]
                exact hval
              · exact htake
            have hflen : ((b :: rest).drop v).length ≤ fuel := by
              simp only [List.length_cons] at hf
              simp only [List.length_drop, List.length_cons]
              omega
            obtain ⟨out2, p', he2, hs2, hv2, hp'⟩ :=
              ih [] ((b :: rest).drop v) r hflen (by simpa using hrest) (Or.inl rfl)
            refine ⟨(b :: rest).take v ++ out2, p', ?_, ?_, ?_, hp'⟩
            · simp only [decodeAllGo, decode_prefix_empty rfl hv hpos, ← hvdef, he2]
              rfl
            · simp only [List.nil_append] at hs2
              rw [List.append_assoc, hs2, List.take_append_drop, List.nil_append]
            · exact validUtf8_append htake hv2
          · -- invalid from byte 0: one byte moves into the pending buffer
            have hv0 : utf8ValidUpTo (b :: rest) = 0 := by omega
            have hnil : (b :: rest) ++ r ≠ [] := by simp
            obtain ⟨n, hn⟩ := validUtf8_firstChar hval hnil
            have hngt : (b :: rest).length < n := by
              by_contra hle
              push_neg at hle
              have := utf8FirstChar_of_append hn hle
              have h1 := utf8FirstChar_bounds this
              have := utf8ValidUpTo_some this
              omega
            have hb1 : [b] = ((b :: rest) ++ r).take 1 := by simp
            have hfc1 : utf8FirstChar [b] = none := by
              rw [hb1]
              exact utf8FirstChar_take_none hn (by omega)
                (by simp only [List.length_cons] at hngt; omega)
            have hcp1 : charEncPrefix [b] = true := by
              rw [hb1]
              exact charEncPrefix_take hn (by omega)
                (by simp only [List.length_cons] at hngt; omega)
            have hbuf : validUtf8 ([] ++ [b]) = false := by
              simpa using validUtf8_false_of_firstChar_none hfc1 (by simp)
            obtain ⟨out2, p', he2, hs2, hv2, hp'⟩ :=
              ih [b] rest r (by simp only [List.length_cons] at hf; omega)
                (by simpa using hval) (Or.inr ⟨hcp1, hfc1⟩)
            refine ⟨out2, p', ?_, ?_, hv2, hp'⟩
            · have hd := decode_err_buffer (d := ⟨[]⟩) hv0 hbuf (by simp)
              simp only [decodeAllGo, hd]
              simp only [List.nil_append] at he2 ⊢
              rw [he2]
              simp
            · simp only [List.nil_append] at hs2 ⊢
              rw [hs2]
              simp
      · -- pending bytes: the stream is mid-character
        obtain ⟨hcp, hnone⟩ : charEncPrefix p = true ∧ utf8FirstChar p = none := by
          rcases hp with rfl | h
          · exact absurd rfl hpe
          · exact h
        have hshape : p ++ (b :: rest) ++ r = p ++ b :: (rest ++ r) := by simp
        have hval' : validUtf8 (p ++ b :: (rest ++ r)) = true := by
          rw [← hshape]
          exact hval
        have hnil : p ++ b :: (rest ++ r) ≠ [] := by simp
        obtain ⟨n, hn⟩ := validUtf8_firstChar hval' hnil
        have hb := utf8FirstChar_bounds hn
        have hngt : p.length < n := by
          by_contra hle
          push_neg at hle
          have h2 := utf8FirstChar_of_append (x := p) (y := b :: (rest ++ r)) hn hle
          rw [hnone] at h2
          exact Option.noConfusion h2
        have hcb : isCont b = true :=
          utf8FirstChar_cont_at hn (List.length_pos.mpr hpe) hngt
        have hfc_src : utf8FirstChar (b :: rest) = none :=
          utf8FirstChar_cont_start hcb rest
        have hv0 : utf8ValidUpTo (b :: rest) = 0 := utf8ValidUpTo_none hfc_src
        have hbtake : p ++ [b] = (p ++ b :: (rest ++ r)).take (p.length + 1) := by
          rw [List.take_append 1]
          rfl
        have hfuel : rest.length ≤ fuel := by
          simp only [List.length_cons] at hf
          omega
        by_cases hfull : p.length + 1 = n
        · -- the pending character is completed by `b`
          have hfcbuf : utf8FirstChar (p ++ [b]) = some n := by
            apply utf8FirstChar_of_append (y := rest ++ r)
            · have hsh : (p ++ [b]) ++ (rest ++ r) = p ++ b :: (rest ++ r) := by
                simp
              rw [hsh]
              exact hn
            · simp only [List.length_append, List.length_cons, List.length_nil]
              omega
          have hbufval : validUtf8 (p ++ [b]) = true := by
            apply isCharEnc_valid
            show utf8FirstChar (p ++ [b]) = some (p ++ [b]).length
            rw [hfcbuf]
            congr 1
            simp only [List.length_append, List.length_cons, List.length_nil]
            omega
          have hd := decode_err_char (d := ⟨p⟩) hv0 hbufval
          have hrest : validUtf8 (rest ++ r) = true := by
            apply validUtf8_of_append_right (x := p ++ [b])
            · have hsh : (p ++ [b]) ++ (rest ++ r) = p ++ b :: (rest ++ r) := by
                simp
              rw [hsh]
              exact hval'
            · exact hbufval
          obtain ⟨out2, p', he2, hs2, hv2, hp'⟩ :=
            ih [] rest r hfuel (by simpa using hrest) (Or.inl rfl)
          refine ⟨(p ++ [b]) ++ out2, p', ?_, ?_, ?_, hp'⟩
          · simp only [decodeAllGo, hd, he2]
            rfl
          · simp only [List.nil_append] at hs2
            rw [List.append_assoc, hs2]
            simp
          · exact validUtf8_append hbufval hv2
        · -- `b` extends the pending prefix but does not complete it
          have hlt : p.length + 1 < n := by omega
          have hfcbuf : utf8FirstChar (p ++ [b]) = none := by
            rw [hbtake]
            exact utf8FirstChar_take_none hn (by omega) hlt
          have hcpbuf : charEncPrefix (p ++ [b]) = true := by
            rw [hbtake]
            exact charEncPrefix_take hn (by omega) (by omega)
          have hbufval : validUtf8 (p ++ [b]) = false :=
            validUtf8_false_of_firstChar_none hfcbuf (by simp)
          have hlen4 : (p ++ [b]).length ≠ 4 := by
            simp only [List.length_append, List.length_cons, List.length_nil]
            omega
          have hd := decode_err_buffer (d := ⟨p⟩) hv0 hbufval hlen4
          have hvrec : validUtf8 ((p ++ [b]) ++ rest ++ r) = true := by
            have hsh : (p ++ [b]) ++ rest ++ r = p ++ (b :: rest) ++ r := by
              simp
            rw [hsh]
            exact hval
          obtain ⟨out2, p', he2, hs2, hv2, hp'⟩ :=
            ih (p ++ [b]) rest r hfuel hvrec (Or.inr ⟨hcpbuf, hfcbuf⟩)
          refine ⟨out2, p', ?_, ?_, hv2, hp'⟩
          · simp only [decodeAllGo, hd, he2]
            rfl
          · rw [hs2]
            simp

theorem feedPieces_valid :
    ∀ (pieces : List (List Nat)) (p : List Nat),
    validUtf8 (p ++ pieces.flatten) = true →
    (p = [] ∨ (charEncPrefix p = true ∧ utf8FirstChar p = none)) →
    ∃ out p',
      feedPieces ⟨p⟩ pieces = (out, ⟨p'⟩) ∧
      out ++ p' = p ++ pieces.flatten ∧
      validUtf8 out = true ∧
      (p' = [] ∨ (charEncPrefix p' = true ∧ utf8FirstChar p' = none)) := by
  intro pieces
  induction pieces with
  | nil =>
    intro p hval hp
    exact ⟨[], p, rfl, by simp, validUtf8_nil, hp⟩
  | cons piece ps ih =>
    intro p hval hp
    have hval1 : validUtf8 (p ++ piece ++ ps.flatten) = true := by
      simpa [List.flatten_cons, List.append_assoc] using hval
    obtain ⟨out1, p1, he1, hs1, hv1, hp1⟩ :=
      decodeAllGo_valid piece.length p piece ps.flatten le_rfl
        (by simpa [List.append_assoc] using hval1) hp
    have hval2 : validUtf8 (p1 ++ ps.flatten) = true := by
      apply validUtf8_of_append_right (x := out1) _ hv1
      rw [← List.append_assoc, hs1]
      exact hval1
    obtain ⟨out2, p2, he2, hs2, hv2, hp2⟩ := ih p1 hval2 hp1
    refine ⟨out1 ++ out2, p2, ?_, ?_, validUtf8_append hv1 hv2, hp2⟩
    · show (let first := decodeAll ⟨p⟩ piece;
        let next := feedPieces first.2 ps;
        (first.1 ++ next.1, next.2)) = (out1 ++ out2, ⟨p2⟩)
      rw [show decodeAll ⟨p⟩ piece = (out1, ⟨p1⟩) from he1]
      simp only [he2]
    · rw [List.append_assoc, hs2, ← List.append_assoc, hs1,
        List.flatten_cons, List.append_assoc]

/-- Bytes having no character-encoding prefix cannot start a
character, whatever follows them. -/
theorem utf8FirstChar_none_of_seg {x : List Nat} (y : List Nat) (hx : x ≠ [])
    (hseg : ∀ m, 0 < m → m ≤ x.length → charEncPrefix (x.take m) = false) :
    utf8FirstChar (x ++ y) = none := by
  cases hfc : utf8FirstChar (x ++ y) with
  | none => rfl
  | some n =>
    exfalso
    have hb := utf8FirstChar_bounds hfc
    by_cases hn : n ≤ x.length
    · have hcp := charEncPrefix_take hfc (m := n) (by omega) le_rfl
      rw [List.take_append_of_le_length hn] at hcp
      rw [hseg n (by omega) hn] at hcp
      exact Bool.noConfusion hcp
    · push_neg at hn
      have hxpos : 0 < x.length := List.length_pos.mpr hx
      have hcp := charEncPrefix_take hfc (m := x.length) (by omega) (by omega)
      rw [List.take_append_of_le_length le_rfl, List.take_length] at hcp
      have h2 := hseg x.length hxpos le_rfl
      rw [List.take_length] at h2
      rw [h2] at hcp
      exact Bool.noConfusion hcp

theorem validUtf8_false_of_seg {x : List Nat} (hx : x ≠ [])
    (hseg : ∀ m, 0 < m → m ≤ x.length → charEncPrefix (x.take m) = false) :
    validUtf8 x = false := by
  have hfc : utf8FirstChar x = none := by
    have := utf8FirstChar_none_of_seg [] hx hseg
    simpa using this
  exact validUtf8_false_of_firstChar_none hfc hx

/-- Core of the damage-containment property: consuming a wholly
unfixable run with the pending buffer, then a valid character, emits one
replacement character and then that character. -/
theorem damage_run :
    ∀ (R p e : List Nat), isCharEnc e →
    p.length + R.length ≤ 4 →
    1 ≤ p.length + R.length →
    (∀ m, 0 < m → m ≤ p.length + R.length →
      charEncPrefix ((p ++ R).take m) = false) →
    (∀ i j, i < j → j ≤ R.length → charEncPrefix ((R.drop i).take (j - i)) = false) →
    decodeAllGo (R.length + e.length) ⟨p⟩ (R ++ e) =
      (replacementChar ++ e, ⟨[]⟩) := by
  intro R
  induction R with
  | nil =>
    intro p e he h4 h1 hpre hseg
    obtain ⟨c, e', rfl⟩ : ∃ c e', e = c :: e' := by
      cases e with
      | nil => simp [isCharEnc, utf8FirstChar] at he
      | cons c e' => exact ⟨c, e', rfl⟩
    have hpne : p ≠ [] := by
      intro h0
      rw [h0] at h1
      simp at h1
    have hve : utf8ValidUpTo (c :: e') = (c :: e').length := by
      have := isCharEnc_valid he
      simpa [validUtf8] using this
    show decodeAllGo ([].length + (c :: e').length) ⟨p⟩ ([] ++ c :: e') = _
    simp only [List.length_nil, List.nil_append, Nat.zero_add, List.length_cons,
      decodeAllGo, decode_ok_pending (d := ⟨p⟩) hpne hve, decodeAllGo_nil]
    simp
  | cons b R' ih =>
    intro p e he h4 h1 hpre hseg
    have h4' : p.length + (R'.length + 1) ≤ 4 := by
      simpa [List.length_cons] using h4
    have hfc0 : utf8FirstChar ((b :: R') ++ e) = none := by
      apply utf8FirstChar_none_of_seg e (by simp)
      intro m hm hmle
      have := hseg 0 m (by omega) (by simpa using hmle)
      simpa using this
    have hv0 : utf8ValidUpTo (b :: (R' ++ e)) = 0 := by
      apply utf8ValidUpTo_none
      simpa using hfc0
    have htakeb : ∀ m, m ≤ p.length + 1 →
        (p ++ b :: R').take m = (p ++ [b]).take m := by
      intro m hm
      have hsplit : p ++ b :: R' = (p ++ [b]) ++ R' := by simp
      rw [hsplit, List.take_append_of_le_length]
      simp only [List.length_append, List.length_cons, List.length_nil]
      omega
    have hbufinv : validUtf8 (p ++ [b]) = false := by
      apply validUtf8_false_of_seg (by simp)
      intro m hm hmle
      simp only [List.length_append, List.length_cons, List.length_nil] at hmle
      rw [← htakeb m (by omega)]
      apply hpre m hm
      simp only [List.length_cons]
      omega
    have hfuel : (b :: R').length + e.length = (R'.length + e.length) + 1 := by
      simp only [List.length_cons]
      omega
    rw [show (b :: R') ++ e = b :: (R' ++ e) from rfl, hfuel]
    by_cases hp3 : p.length = 3
    · -- the pending buffer fills up: flush one replacement character
      have hR' : R' = [] := by
        cases R' with
        | nil => rfl
        | cons x xs => simp only [List.length_cons] at h4'; omega
      subst hR'
      have hlen4 : (p ++ [b]).length = 4 := by
        simp only [List.length_append, List.length_cons, List.length_nil]
        omega
      obtain ⟨c, e', rfl⟩ : ∃ c e', e = c :: e' := by
        cases e with
        | nil => simp [isCharEnc, utf8FirstChar] at he
        | cons c e' => exact ⟨c, e', rfl⟩
      have hve : utf8ValidUpTo (c :: e') = (c :: e').length := by
        have := isCharEnc_valid he
        simpa [validUtf8] using this
      have hv0' : utf8ValidUpTo (b :: c :: e') = 0 := by simpa using hv0
      simp only [List.nil_append, List.length_nil, Nat.zero_add, List.length_cons,
        decodeAllGo, decode_err_full (d := ⟨p⟩) hv0' hbufinv hlen4]
      simp only [decodeAllGo, decode_ok_empty rfl hve, decodeAllGo_nil]
      simp
    · -- the byte is buffered; recurse on the rest of the run
      have hlen4 : (p ++ [b]).length ≠ 4 := by
        simp only [List.length_append, List.length_cons, List.length_nil]
        omega
      have hstep := decode_err_buffer (d := ⟨p⟩) hv0 hbufinv hlen4
      simp only [decodeAllGo, hstep]
      have hrec := ih (p ++ [b]) e he
        (by simp only [List.length_append, List.length_cons, List.length_nil]
            omega)
        (by simp only [List.length_append, List.length_cons, List.length_nil]
            omega)
        (by intro m hm hmle
            have hsplit : (p ++ [b]) ++ R' = p ++ b :: R' := by simp
            rw [hsplit]
            apply hpre m hm
            simp only [List.length_append, List.length_cons, List.length_nil] at hmle ⊢
            omega)
        (by intro i j hij hj
            have := hseg (i + 1) (j + 1) (by omega)
              (by simp only [List.length_cons]; omega)
            simpa using this)
      rw [hrec]
      rfl

/-! ## Claim theorems: the decoder -/

/-- C1: for every valid UTF-8 string, splitting its byte encoding at
arbitrary (even single-byte) boundaries and feeding the pieces
sequentially through `decode` on a fresh decoder yields outputs whose
concatenation is exactly the original string (and the decoder ends with
an empty pending buffer). -/
theorem decoder_round_trip (pieces : List (List Nat))
    (hB : validUtf8 pieces.flatten = true) :
    feedPieces StringDecoder.new pieces = (pieces.flatten, StringDecoder.new) := by
  obtain ⟨out, p', he, hs, hv, hp'⟩ :=
    feedPieces_valid pieces [] (by simpa using hB) (Or.inl rfl)
  have hs' : out ++ p' = pieces.flatten := by simpa using hs
  have hvalp : validUtf8 p' = true := by
    apply validUtf8_of_append_right (x := out) _ hv
    rw [hs']
    exact hB
  have hpnil : p' = [] := by
    rcases hp' with rfl | ⟨hcp, hnone⟩
    · rfl
    · by_contra hne
      rw [validUtf8_false_of_firstChar_none hnone hne] at hvalp
      exact Bool.noConfusion hvalp
  subst hpnil
  have hout : out = pieces.flatten := by simpa using hs'
  subst hout
  exact he

theorem decoder_round_trip_witness :
    validUtf8 (List.flatten [[0x61, 0xC3], [0xA9, 0xE2], [0x82], [0xAC]]) = true ∧
    feedPieces StringDecoder.new [[0x61, 0xC3], [0xA9, 0xE2], [0x82], [0xAC]] =
      (List.flatten [[0x61, 0xC3], [0xA9, 0xE2], [0x82], [0xAC]],
        StringDecoder.new) :=
  ⟨by decide, decoder_round_trip [[0x61, 0xC3], [0xA9, 0xE2], [0x82], [0xAC]]
    (by decide)⟩

/-- C9: on every input chunk and decoder state, `decode` returns `Ok`;
the `Err` branch of its result type is never taken. -/
theorem decode_never_errors (d : StringDecoder) (src : List Nat) :
    ∃ v, (d.decode src).1 = Except.ok v := by
  cases src with
  | nil => exact ⟨none, rfl⟩
  | cons b rest =>
    simp only [StringDecoder.decode]
    split_ifs <;> exact ⟨_, rfl⟩

/-- C3 counterexample: on the chunk `41 80` (valid `"A"` then an invalid
byte) a single call to a fresh decoder returns the valid prefix but
leaves the invalid tail byte `80` in the source buffer — the same call
does not consume it into the pending buffer. -/
theorem decode_tail_untouched_cex :
    StringDecoder.new.decode [0x41, 0x80] =
      (.ok (some [0x41]), StringDecoder.new, [0x80]) ∧
    (StringDecoder.new.decode [0x41, 0x80]).2.2 ≠ [] ∧
    (StringDecoder.new.decode [0x41, 0x80]).2.1.incomplete = [] :=
  ⟨rfl, by decide, by decide⟩

/-- A call on a buffer with no valid prefix consumes exactly one byte. -/
theorem decode_consumes_one {l : List Nat} (h : utf8ValidUpTo l = 0)
    (d : StringDecoder) : (d.decode l).2.2 = l.tail := by
  cases l with
  | nil => rfl
  | cons b rest =>
    simp only [StringDecoder.decode, List.length_cons]
    split_ifs <;> first | rfl | omega

/-- C3 (amended): when a chunk has a nonempty valid prefix followed by an
invalid tail, `decode` returns the prefix (with the pending-state U+FFFD
flush rule), resets the pending buffer, and leaves the tail bytes in the
source buffer; the tail has no valid prefix, and each *subsequent* call
consumes exactly one of its bytes into the pending buffer. -/
theorem decode_valid_prefix_leaves_tail (d : StringDecoder) (b : Nat)
    (rest : List Nat) (hpos : 0 < utf8ValidUpTo (b :: rest))
    (hlt : utf8ValidUpTo (b :: rest) < (b :: rest).length) :
    (d.decode (b :: rest)).1 =
      .ok (some (if d.incomplete.length > 0 then
        replacementChar ++ (b :: rest).take (utf8ValidUpTo (b :: rest))
      else (b :: rest).take (utf8ValidUpTo (b :: rest)))) ∧
    (d.decode (b :: rest)).2.1.incomplete = [] ∧
    (d.decode (b :: rest)).2.2 = (b :: rest).drop (utf8ValidUpTo (b :: rest)) ∧
    (d.decode (b :: rest)).2.2 ≠ [] ∧
    utf8ValidUpTo ((d.decode (b :: rest)).2.2) = 0 ∧
    (∀ d' : StringDecoder,
      (d'.decode ((d.decode (b :: rest)).2.2)).2.2 =
        ((d.decode (b :: rest)).2.2).tail) := by
  have hneq : utf8ValidUpTo (b :: rest) ≠ (b :: rest).length := Nat.ne_of_lt hlt
  have hdropne : (b :: rest).drop (utf8ValidUpTo (b :: rest)) ≠ [] := by
    intro h0
    have := List.drop_eq_nil_iff.mp h0
    omega
  have hvd : utf8ValidUpTo ((b :: rest).drop (utf8ValidUpTo (b :: rest))) = 0 :=
    utf8ValidUpTo_none (utf8FirstChar_drop_vut (b :: rest))
  by_cases hd0 : d.incomplete.length > 0
  · have hd : d.incomplete ≠ [] := List.length_pos.mp hd0
    rw [decode_prefix_pending hd hneq hpos]
    refine ⟨by simp [hd0], rfl, rfl, hdropne, hvd, ?_⟩
    intro d'
    exact decode_consumes_one hvd d'
  · have hd : d.incomplete = [] := by
      simpa using List.length_eq_zero.mp (by omega)
    rw [decode_prefix_empty hd hneq hpos]
    refine ⟨by simp [hd0], hd, rfl, hdropne, hvd, ?_⟩
    intro d'
    exact decode_consumes_one hvd d'

theorem decode_valid_prefix_leaves_tail_witness :
    0 < utf8ValidUpTo [0x41, 0x80] ∧
    utf8ValidUpTo [0x41, 0x80] < ([0x41, 0x80] : List Nat).length ∧
    (StringDecoder.new.decode [0x41, 0x80]).2.2 =
      ([0x41, 0x80] : List Nat).drop (utf8ValidUpTo [0x41, 0x80]) :=
  ⟨by decide, by decide,
    (decode_valid_prefix_leaves_tail StringDecoder.new 0x41 [0x80]
      (by decide) (by decide)).2.2.1⟩

/-- C4 counterexample: after decoding the chunk `80` from a fresh state,
the pending buffer holds the byte `80`, which is *not* a prefix of the
encoding of any valid UTF-8 character (no extension of it decodes). -/
theorem decoder_pending_unextendable_cex :
    (StringDecoder.new.decode [0x80]).2.1.incomplete = [0x80] ∧
    ¬ ∃ t : List Nat,
      isCharEnc ((StringDecoder.new.decode [0x80]).2.1.incomplete ++ t) := by
  refine ⟨rfl, ?_⟩
  rintro ⟨t, ht⟩
  have hrw : (StringDecoder.new.decode [0x80]).2.1.incomplete ++ t = 0x80 :: t := rfl
  rw [hrw] at ht
  have hnone : utf8FirstChar (0x80 :: t) = none := by
    simp only [utf8FirstChar]
    split_ifs <;> first | rfl | omega
  rw [isCharEnc, hnone] at ht
  exact Option.noConfusion ht

/-- The true decoder-state invariant: the pending buffer is empty or
holds at most three bytes that do not yet decode as UTF-8. -/
def DecoderInv (d : StringDecoder) : Prop :=
  d.incomplete = [] ∨
    (validUtf8 d.incomplete = false ∧ d.incomplete.length ≤ 3)

/-- C4 (amended): `decode` preserves the invariant that the pending-byte
count lies in [0,3] (hence in [0,4]) and that a nonempty pending buffer
is not yet decodable as UTF-8.  (The buffered bytes need *not* be a
prefix of any valid character — bytes such as `80` are buffered too.) -/
theorem decoder_state_invariant (d : StringDecoder) (src : List Nat)
    (h : DecoderInv d) :
    DecoderInv (d.decode src).2.1 ∧ (d.decode src).2.1.incomplete.length ≤ 4 := by
  have main : DecoderInv (d.decode src).2.1 := by
    cases src with
    | nil => exact h
    | cons b rest =>
      simp only [StringDecoder.decode]
      split_ifs with h1 h2 h3 h4 h5 h6
      · exact Or.inl rfl
      · exact h
      · exact Or.inl rfl
      · exact h
      · exact Or.inl rfl
      · exact Or.inl rfl
      · show DecoderInv ⟨d.incomplete ++ [b]⟩
        refine Or.inr ⟨?_, ?_⟩
        · simp only [validUtf8, decide_eq_false_iff_not]
          exact h5
        · simp only [List.length_append, List.length_cons, List.length_nil] at h6 ⊢
          rcases h with h0 | ⟨_, hlen⟩
          · simp [h0]
          · omega
  refine ⟨main, ?_⟩
  rcases main with h0 | ⟨_, hlen⟩
  · simp [h0]
  · omega

theorem decoder_state_invariant_witness :
    DecoderInv StringDecoder.new ∧
    DecoderInv (StringDecoder.new.decode [0x80]).2.1 ∧
    (StringDecoder.new.decode [0x80]).2.1.incomplete.length ≤ 4 := by
  have h := decoder_state_invariant StringDecoder.new [0x80] (Or.inl rfl)
  exact ⟨Or.inl rfl, h.1, h.2⟩

/-- C5: a run of `k ≤ 4` bytes none of whose nonempty segments is a
prefix of any valid character encoding (so the run is invalid and not
extendable to a valid character, byte by byte), followed by a valid
character, decodes to exactly one U+FFFD replacement character followed
by that character. -/
theorem decoder_damage_containment (R e : List Nat) (h1 : 1 ≤ R.length)
    (h4 : R.length ≤ 4)
    (hseg : ∀ i j, i < j → j ≤ R.length →
      charEncPrefix ((R.drop i).take (j - i)) = false)
    (he : isCharEnc e) :
    decodeAll StringDecoder.new (R ++ e) =
      (replacementChar ++ e, StringDecoder.new) := by
  show decodeAllGo (R ++ e).length ⟨[]⟩ (R ++ e) = _
  rw [List.length_append]
  exact damage_run R [] e he (by simpa using h4) (by simpa using h1)
    (by
      intro m hm hmle
      have := hseg 0 m (by omega) (by simpa using hmle)
      simpa using this)
    hseg

theorem decoder_damage_containment_witness :
    (1 ≤ ([0x80, 0x80] : List Nat).length ∧
      ([0x80, 0x80] : List Nat).length ≤ 4 ∧ isCharEnc [0x41]) ∧
    decodeAll StringDecoder.new ([0x80, 0x80] ++ [0x41]) =
      (replacementChar ++ [0x41], StringDecoder.new) :=
  ⟨⟨by decide, by decide, rfl⟩,
    decoder_damage_containment [0x80, 0x80] [0x41] (by decide) (by decide)
      (by
        intro i j hij hj
        simp only [List.length_cons, List.length_nil] at hj
        interval_cases j <;> interval_cases i <;> decide)
      rfl⟩

/-! ## Claim theorems: the session loop and the key translator -/

theorem monitorRun_append (config : Config) :
    ∀ (xs ys : List LoopMsg) (st : MonitorState),
    monitorRun config st (xs ++ ys) =
      match monitorRun config st xs with
      | .ok (st', none) => monitorRun config st' ys
      | other => other := by
  intro xs
  induction xs with
  | nil => intro ys st; rfl
  | cons m ms ih =>
    intro ys st
    simp only [List.cons_append, monitorRun]
    cases hms : monitorStep config st m with
    | error e => rfl
    | ok v =>
      obtain ⟨st', r⟩ := v
      cases r with
      | none => exact ih ys st'
      | some rr => rfl

/-- C2 counterexample: after the terminal-event source closes
(`maybe_event` returns `None`), the loop keeps running and still
translates and enqueues the next key event — it does not transition to a
terminating state. -/
theorem monitor_source_close_cex :
    monitorRun ⟨.Cr, false, false⟩ .init
      [.term .closed, .term (.ev (.Key ⟨.Char 0x61, 0, .Press, 0⟩))] =
      .ok (⟨[[0x61]], []⟩, none) ∧
    ([[0x61]] : List (List Nat)) ≠ [] :=
  ⟨rfl, by decide⟩

/-- C2 (amended): a closed terminal-event source, an errored
terminal-event source, and a closed serial source are only logged: the
iteration does not break, the state is unchanged, and the loop goes on
consuming later events.  Only the exit sentinel and a serial-source
*error* terminate the loop. -/
theorem monitor_nonexit_sources (config : Config) (st : MonitorState)
    (ms : List LoopMsg) :
    monitorStep config st (.term .closed) = .ok (st, none) ∧
    monitorStep config st (.term .err) = .ok (st, none) ∧
    monitorStep config st (.serial .closed) = .ok (st, none) ∧
    monitorRun config st (.term .closed :: ms) = monitorRun config st ms ∧
    monitorRun config st (.term .err :: ms) = monitorRun config st ms ∧
    monitorRun config st (.serial .closed :: ms) = monitorRun config st ms ∧
    monitorStep config st (.serial .err) = .ok (st, some .serialError) :=
  ⟨rfl, rfl, rfl, rfl, rfl, rfl, rfl⟩

/-- C7: once the exit sentinel is observed, the loop breaks with the
user-exit reason; no event after it in the input sequence is translated
or enqueued — the final state is exactly the state reached before the
sentinel, whatever arrives afterwards. -/
theorem exit_precedence (config : Config) (pre post : List LoopMsg)
    (st : MonitorState)
    (h : monitorRun config MonitorState.init pre = .ok (st, none)) :
    monitorRun config MonitorState.init
      (pre ++ .term (.ev (exit_code config)) :: post) =
      .ok (st, some .userExit) := by
  rw [monitorRun_append, h]
  show monitorRun config st (.term (.ev (exit_code config)) :: post) = _
  simp only [monitorRun, monitorStep, if_pos]

theorem exit_precedence_witness :
    monitorRun ⟨.Cr, false, false⟩ MonitorState.init
      [.serial (.ok [0x68])] = .ok (⟨[], [[0x68]]⟩, none) ∧
    monitorRun ⟨.Cr, false, false⟩ MonitorState.init
      ([.serial (.ok [0x68])] ++
        .term (.ev (exit_code ⟨.Cr, false, false⟩)) ::
        [.term (.ev (.Key ⟨.Char 0x61, 0, .Press, 0⟩))]) =
      .ok (⟨[], [[0x68]]⟩, some .userExit) :=
  ⟨rfl, exit_precedence ⟨.Cr, false, false⟩ [.serial (.ok [0x68])]
    [.term (.ev (.Key ⟨.Char 0x61, 0, .Press, 0⟩))] ⟨[], [[0x68]]⟩ rfl⟩

/-- C8: a serial-source error while the loop is running terminates it via
the serial-error path (ignoring anything queued afterwards), the monitor
returns a success value (`Ok`), and the raw-mode disable action of the
caller runs regardless (it is sequenced before the monitor result is
propagated). -/
theorem serial_error_clean_termination (config : Config)
    (pre post : List LoopMsg) (st : MonitorState)
    (h : monitorRun config MonitorState.init pre = .ok (st, none)) :
    monitorRun config MonitorState.init (pre ++ .serial .err :: post) =
      .ok (st, some .serialError) ∧
    (run_session config (pre ++ .serial .err :: post)).2 =
      .ok (st, some .serialError) ∧
    (run_session config (pre ++ .serial .err :: post)).1 =
      [TermModeAction.enableRaw, TermModeAction.disableRaw] := by
  have hrun : monitorRun config MonitorState.init (pre ++ .serial .err :: post) =
      .ok (st, some .serialError) := by
    rw [monitorRun_append, h]
    rfl
  exact ⟨hrun, by simpa [run_session] using hrun, rfl⟩

theorem serial_error_clean_termination_witness :
    monitorRun ⟨.Cr, false, false⟩ MonitorState.init
      ([.serial (.ok [0x68])] ++ .serial .err ::
        [.term (.ev (.Key ⟨.Char 0x61, 0, .Press, 0⟩))]) =
      .ok (⟨[], [[0x68]]⟩, some .serialError) :=
  (serial_error_clean_termination ⟨.Cr, false, false⟩ [.serial (.ok [0x68])]
    [.term (.ev (.Key ⟨.Char 0x61, 0, .Press, 0⟩))] ⟨[], [[0x68]]⟩ rfl).1

/-- C10: the exit comparison is against the full key-event value: an
event carrying the exit character with CONTROL but with a kind other
than `Press` is not the sentinel; it goes through `handle_key_event` and
is enqueued as the corresponding control byte (0x18 for `x`, 0x19 for
`y`). -/
theorem exit_requires_press_kind (config : Config) (st : MonitorState)
    (kind : KeyEventKind) (hk : kind ≠ .Press) :
    Event.Key ⟨.Char (exit_char config), CONTROL, kind, 0⟩ ≠ exit_code config ∧
    handle_key_event ⟨.Char (exit_char config), CONTROL, kind, 0⟩ config =
      .ok (some [if config.ctrl_y_exit then 0x19 else 0x18]) ∧
    monitorStep config st
      (.term (.ev (.Key ⟨.Char (exit_char config), CONTROL, kind, 0⟩))) =
      .ok ({ st with
        sent := st.sent ++ [[if config.ctrl_y_exit then 0x19 else 0x18]] },
        none) := by
  have hne : Event.Key ⟨.Char (exit_char config), CONTROL, kind, 0⟩ ≠
      exit_code config := by
    intro heq
    simp only [exit_code, Event.Key.injEq, KeyEvent.mk.injEq] at heq
    exact hk heq.2.2.1
  have hkey : handle_key_event ⟨.Char (exit_char config), CONTROL, kind, 0⟩
      config = .ok (some [if config.ctrl_y_exit then 0x19 else 0x18]) := by
    cases hy : config.ctrl_y_exit <;>
      simp [handle_key_event, exit_char, hy, CONTROL] <;> decide
  refine ⟨hne, hkey, ?_⟩
  simp only [monitorStep, if_neg hne, hkey]

theorem exit_requires_press_kind_witness :
    Event.Key ⟨.Char (exit_char ⟨.Cr, false, false⟩), CONTROL, .Release, 0⟩ ≠
      exit_code ⟨.Cr, false, false⟩ ∧
    monitorStep ⟨.Cr, false, false⟩ MonitorState.init
      (.term (.ev (.Key ⟨.Char (exit_char ⟨.Cr, false, false⟩), CONTROL,
        .Release, 0⟩))) =
      .ok (⟨[[0x18]], []⟩, none) := by
  have h := exit_requires_press_kind ⟨.Cr, false, false⟩ MonitorState.init
    .Release (by intro h0; exact KeyEventKind.noConfusion h0)
  exact ⟨h.1, h.2.2⟩

/-- C6: the key-translation table of `handle_key_event`, bit-exact:
named keys, `Enter` → the configured end-of-line bytes, control chords
over lowercase letters/space and over `'4'..'7'`, and the UTF-8
fallthrough for every other character. -/
theorem key_translation_table (config : Config) (mods stt : Nat)
    (kind : KeyEventKind) :
    handle_key_event ⟨.Backspace, mods, kind, stt⟩ config = .ok (some [0x08]) ∧
    handle_key_event ⟨.Tab, mods, kind, stt⟩ config = .ok (some [0x09]) ∧
    handle_key_event ⟨.Esc, mods, kind, stt⟩ config = .ok (some [0x1b]) ∧
    handle_key_event ⟨.LeftArrow, mods, kind, stt⟩ config =
      .ok (some [0x1b, 0x5b, 0x44]) ∧
    handle_key_event ⟨.RightArrow, mods, kind, stt⟩ config =
      .ok (some [0x1b, 0x5b, 0x43]) ∧
    handle_key_event ⟨.UpArrow, mods, kind, stt⟩ config =
      .ok (some [0x1b, 0x5b, 0x41]) ∧
    handle_key_event ⟨.DownArrow, mods, kind, stt⟩ config =
      .ok (some [0x1b, 0x5b, 0x42]) ∧
    handle_key_event ⟨.HomeKey, mods, kind, stt⟩ config =
      .ok (some [0x1b, 0x5b, 0x48]) ∧
    handle_key_event ⟨.EndKey, mods, kind, stt⟩ config =
      .ok (some [0x1b, 0x5b, 0x46]) ∧
    handle_key_event ⟨.DeleteKey, mods, kind, stt⟩ config =
      .ok (some [0x1b, 0x5b, 0x33, 0x7e]) ∧
    handle_key_event ⟨.InsertKey, mods, kind, stt⟩ config =
      .ok (some [0x1b, 0x5b, 0x32, 0x7e]) ∧
    handle_key_event ⟨.Enter, mods, kind, stt⟩ config =
      .ok (some config.enter.bytes) ∧
    Eol.Cr.bytes = [0x0D] ∧ Eol.Crlf.bytes = [0x0D, 0x0A] ∧
    Eol.Lf.bytes = [0x0A] ∧
    (∀ c : Nat, mods &&& CONTROL = CONTROL →
      (0x61 ≤ c ∧ c ≤ 0x7a) ∨ c = 0x20 →
      handle_key_event ⟨.Char c, mods, kind, stt⟩ config =
        .ok (some [c &&& 0x1f])) ∧
    (∀ c : Nat, mods &&& CONTROL = CONTROL → 0x34 ≤ c → c ≤ 0x37 →
      handle_key_event ⟨.Char c, mods, kind, stt⟩ config =
        .ok (some [(c + 8) &&& 0x1f])) ∧
    (∀ c : Nat, mods &&& CONTROL = CONTROL →
      ¬((0x61 ≤ c ∧ c ≤ 0x7a) ∨ c = 0x20) → ¬(0x34 ≤ c ∧ c ≤ 0x37) →
      handle_key_event ⟨.Char c, mods, kind, stt⟩ config =
        .ok (some (utf8Encode c))) ∧
    (∀ c : Nat, mods &&& CONTROL ≠ CONTROL →
      handle_key_event ⟨.Char c, mods, kind, stt⟩ config =
        .ok (some (utf8Encode c))) := by
  refine ⟨rfl, rfl, rfl, rfl, rfl, rfl, rfl, rfl, rfl, rfl, rfl, rfl,
    rfl, rfl, rfl, ?_, ?_, ?_, ?_⟩
  · intro c hm hc
    have hmod : c % 256 = c := Nat.mod_eq_of_lt (by omega)
    simp only [handle_key_event, if_pos hm]
    rw [if_pos (by simp only [Bool.or_eq_true, Bool.and_eq_true,
      decide_eq_true_eq]; omega)]
    rw [hmod]
  · intro c hm h4 h7
    have hmod : c % 256 = c := Nat.mod_eq_of_lt (by omega)
    simp only [handle_key_event, if_pos hm]
    rw [if_neg (by simp only [Bool.or_eq_true, Bool.and_eq_true,
      decide_eq_true_eq]; omega)]
    rw [if_pos (by simp only [Bool.and_eq_true, decide_eq_true_eq]; omega)]
    rw [hmod]
  · intro c hm hlc hdig
    simp only [handle_key_event, if_pos hm]
    rw [if_neg (by simp only [Bool.or_eq_true, Bool.and_eq_true,
      decide_eq_true_eq]; omega)]
    rw [if_neg (by simp only [Bool.and_eq_true, decide_eq_true_eq]; omega)]
  · intro c hm
    simp only [handle_key_event, if_neg hm]

theorem key_translation_table_witness :
    handle_key_event ⟨.Char 0x61, 2, .Press, 0⟩ ⟨.Crlf, false, false⟩ =
      .ok (some [0x01]) ∧
    handle_key_event ⟨.Char 0x34, 2, .Press, 0⟩ ⟨.Crlf, false, false⟩ =
      .ok (some [0x1C]) ∧
    handle_key_event ⟨.Char 0xE9, 2, .Press, 0⟩ ⟨.Crlf, false, false⟩ =
      .ok (some [0xC3, 0xA9]) ∧
    handle_key_event ⟨.Char 0x71, 0, .Press, 0⟩ ⟨.Crlf, false, false⟩ =
      .ok (some [0x71]) ∧
    handle_key_event ⟨.Enter, 0, .Press, 0⟩ ⟨.Crlf, false, false⟩ =
      .ok (some [0x0D, 0x0A]) := by
  obtain ⟨-, -, -, -, -, -, -, -, -, -, -, hEnter, -, -, -,
      hctrl, hdig, hother, hplain⟩ :=
    key_translation_table ⟨.Crlf, false, false⟩ 2 0 .Press
  obtain ⟨-, -, -, -, -, -, -, -, -, -, -, hEnter0, -, -, -,
      -, -, -, hplain0⟩ :=
    key_translation_table ⟨.Crlf, false, false⟩ 0 0 .Press
  refine ⟨?_, ?_, ?_, ?_, ?_⟩
  · have := hctrl 0x61 (by decide) (by omega)
    simpa using this
  · have := hdig 0x34 (by decide) (by omega) (by omega)
    simpa using this
  · have := hother 0xE9 (by decide) (by omega) (by omega)
    rw [this]
    rfl
  · have := hplain0 0x71 (by decide)
    rw [this]
    rfl
  · exact hEnter0

end SerialMonitor
